import Mathlib

/-!
# chatcore: the in-process message broker of `labs/lab02/backend/chatcore/chatcore.go`

The broker owns a bounded inbound queue (`input`), a registry from user identity to an
outbound channel (`users`), and one dispatch loop (`Run`).  The embedding below follows the
Go source function by function.

* Go channels are reference values.  A `chan Message` is modelled as `Option Nat`:
  `none` is the nil channel and `some i` refers to the channel object `heap i`.  Two
  identities may therefore be registered with one and the same channel.
* Every method body runs under `usersMutex` (or touches only `input`), so a method call is
  one atomic transition of the state.
* A Go run-time panic (send on a closed channel, close of a closed or nil channel) is the
  `Except.error` result.
* `select` with several ready cases picks one pseudo-randomly; that choice is an explicit
  `Bool` argument.  `time.Now().Unix()` is an explicit `Int` argument.
* The registry map is an association list.  Go visits a map in an unspecified order;
  `sendAll_perm` shows that the broadcast gives the same result for every order.
-/

namespace Chatcore

/-! ## Data model -/

/-- Message: a chat message (`type Message struct`); `Timestamp` is the `int64` field. -/
structure Message where
  Sender : String
  Recipient : String
  Content : String
  Broadcast : Bool
  Timestamp : Int
deriving DecidableEq

/-- The non-nil values `ctx.Err()` can return once `ctx.Done()` is closed. -/
inductive CtxErr where
  | Canceled
  | DeadlineExceeded
deriving DecidableEq

/-- The errors `SendMessage` returns: `ctx.Err()` or
`errors.New("broker input channel is full")`. -/
inductive SendErr where
  | ctx (e : CtxErr)
  | inputFull
deriving DecidableEq

/-- The run-time panics a channel operation of this package can raise. -/
inductive Panic where
  | sendOnClosed
  | closeOfClosed
  | closeOfNil
deriving DecidableEq

/-- A Go channel object.  `cap` is the buffer capacity given to `make`, `buf` the buffered
messages (oldest first), `closed` whether `close` has run, `recvq` the number of receivers
parked on the channel.  `sent` is a history field: every message a send has handed to the
channel, in order (it is never read by the program). -/
structure Chan where
  cap : Nat
  buf : List Message
  closed : Bool
  recvq : Nat
  sent : List Message
deriving DecidableEq

/-- A non-blocking send cannot proceed: no parked receiver and no free buffer slot. -/
def Chan.full (c : Chan) : Bool :=
  c.recvq == 0 && decide (c.cap ≤ c.buf.length)

/-- The effect of a send that proceeds: hand the message to a parked receiver if there is
one, otherwise append it to the buffer. -/
def Chan.push (c : Chan) (msg : Message) : Chan :=
  if 0 < c.recvq then { c with recvq := c.recvq - 1, sent := c.sent ++ [msg] }
  else { c with buf := c.buf ++ [msg], sent := c.sent ++ [msg] }

/-- The effect of `close(ch)` on an open channel: mark it closed and wake parked receivers. -/
def Chan.close (c : Chan) : Chan :=
  { c with closed := true, recvq := 0 }

/-- A consumer (outside the package) receiving on the channel: take the oldest buffered
message; on an empty open channel the receiver parks; on an empty closed channel it
returns at once. -/
def Chan.recv (c : Chan) : Chan :=
  match c.buf with
  | _ :: rest => { c with buf := rest }
  | [] => if c.closed then c else { c with recvq := c.recvq + 1 }

/-- The statement `select { case ch <- msg: default: }`.
A nil channel is never ready (default); a closed channel panics; a full channel takes the
default; otherwise the message is sent. -/
def trySend (heap : Nat → Chan) (ch : Option Nat) (msg : Message) :
    Except Panic (Nat → Chan) :=
  match ch with
  | none => .ok heap
  | some i =>
    if (heap i).closed then .error .sendOnClosed
    else if (heap i).full then .ok heap
    else .ok (Function.update heap i ((heap i).push msg))

/-- Capacity of the inbound queue: `make(chan Message, 100)` in `NewBroker`. -/
def inputCap : Nat := 100

/-- Broker: `ctx` is `none` while the context is live and `some e` once `ctx.Done()` is
closed with `ctx.Err() = e`; `input` holds the buffered contents of the inbound channel
(created once with capacity `inputCap`, never closed or reassigned in the package);
`users` is the registry map as an association list; `done` records that the `done`
channel has been closed (the loop has returned); `heap` holds the channel objects the
registry refers to. -/
structure Broker where
  ctx : Option CtxErr
  input : List Message
  users : List (String × Option Nat)
  done : Bool
  heap : Nat → Chan

/-- The map read `c, exists := b.users[userID]`. -/
def lookupUser : List (String × Option Nat) → String → Option (Option Nat)
  | [], _ => none
  | (k, c) :: rest, userID => if k = userID then some c else lookupUser rest userID

/-- The map operation `delete(b.users, userID)`. -/
def deleteUser (users : List (String × Option Nat)) (userID : String) :
    List (String × Option Nat) :=
  users.filter (fun e => decide (e.1 ≠ userID))

/-- The map write `b.users[userID] = recv`. -/
def setUser (users : List (String × Option Nat)) (userID : String) (recv : Option Nat) :
    List (String × Option Nat) :=
  (userID, recv) :: deleteUser users userID

/-! ## Operations -/

/-- NewBroker: empty inbound queue, empty registry, loop not finished.  `heap` is the
ambient store of channel objects created by callers. -/
def NewBroker (ctx : Option CtxErr) (heap : Nat → Chan) : Broker :=
  { ctx := ctx, input := [], users := [], done := false, heap := heap }

/-- The timestamp rule of `Run`: `if msg.Timestamp == 0 { msg.Timestamp = time.Now().Unix() }`. -/
def stamp (msg : Message) (now : Int) : Message :=
  if msg.Timestamp = 0 then { msg with Timestamp := now } else msg

/-- The loop `for _, userChan := range b.users { select { case userChan <- msg: default: } }`. -/
def sendAll (heap : Nat → Chan) : List (String × Option Nat) → Message →
    Except Panic (Nat → Chan)
  | [], _ => .ok heap
  | (_, userChan) :: rest, msg =>
    match trySend heap userChan msg with
    | .error p => .error p
    | .ok heap1 => sendAll heap1 rest msg

/-- broadcastMessage: non-blocking send to every registered channel. -/
def broadcastMessage (b : Broker) (msg : Message) : Except Panic Broker :=
  match sendAll b.heap b.users msg with
  | .error p => .error p
  | .ok heap1 => .ok { b with heap := heap1 }

/-- sendPrivateMessage: non-blocking send to the recipient's channel when registered. -/
def sendPrivateMessage (b : Broker) (msg : Message) : Except Panic Broker :=
  match lookupUser b.users msg.Recipient with
  | some recipientChan =>
    match trySend b.heap recipientChan msg with
    | .error p => .error p
    | .ok heap1 => .ok { b with heap := heap1 }
  | none => .ok b

/-- The body of the `case msg := <-b.input` arm of `Run` after the timestamp rule. -/
def dispatch (b : Broker) (msg : Message) : Except Panic Broker :=
  if msg.Broadcast then broadcastMessage b msg else sendPrivateMessage b msg

/-- One wake of the loop in `Run`.  `b.done` means the goroutine has returned.  The
`select` has two cases: `<-b.ctx.Done()` (ready when the context is done) and
`msg := <-b.input` (ready when the queue is non-empty).  With none ready the loop stays
blocked; with both ready `pick = true` takes the message case.  `now` is the value
`time.Now().Unix()` would return. -/
def RunStep (b : Broker) (pick : Bool) (now : Int) : Except Panic Broker :=
  if b.done then .ok b
  else
    match b.ctx, b.input with
    | none, [] => .ok b
    | none, msg :: rest => dispatch { b with input := rest } (stamp msg now)
    | some _, [] => .ok { b with done := true }
    | some _, msg :: rest =>
      if pick then dispatch { b with input := rest } (stamp msg now)
      else .ok { b with done := true }

/-- SendMessage.  The first `select` returns `ctx.Err()` when the context is already done.
`mid` is a cancellation that arrives between the two `select`s (`none`: no change).  The
second `select` has the cases `b.input <- msg` (ready when the queue has room) and
`<-b.ctx.Done()`; with both ready `pick = true` takes the send; with none ready the
default returns the queue-full error. -/
def SendMessage (b : Broker) (msg : Message) (mid : Option CtxErr) (pick : Bool) :
    Broker × Option SendErr :=
  match b.ctx with
  | some e => (b, some (.ctx e))
  | none =>
    match mid with
    | none =>
      if b.input.length < inputCap then ({ b with input := b.input ++ [msg] }, none)
      else (b, some .inputFull)
    | some e =>
      if b.input.length < inputCap ∧ pick = true then
        ({ b with ctx := some e, input := b.input ++ [msg] }, none)
      else ({ b with ctx := some e }, some (.ctx e))

/-- RegisterUser: `b.users[userID] = recv`. -/
def RegisterUser (b : Broker) (userID : String) (recv : Option Nat) : Broker :=
  { b with users := setUser b.users userID recv }

/-- UnregisterUser: when the user is registered, `close(userChan)` then
`delete(b.users, userID)`.  `close` panics on a nil or already closed channel. -/
def UnregisterUser (b : Broker) (userID : String) : Except Panic Broker :=
  match lookupUser b.users userID with
  | some userChan =>
    match userChan with
    | none => .error .closeOfNil
    | some i =>
      if (b.heap i).closed then .error .closeOfClosed
      else .ok { b with heap := Function.update b.heap i (b.heap i).close,
                        users := deleteUser b.users userID }
  | none => .ok b

/-! ## Interleavings -/

/-- One atomic transition of the system: a method call, one wake of the dispatch loop,
cancellation of the context, or a consumer receiving on a channel. -/
inductive Step where
  | register (userID : String) (recv : Option Nat)
  | unregister (userID : String)
  | send (msg : Message) (mid : Option CtxErr) (pick : Bool)
  | loop (pick : Bool) (now : Int)
  | cancel (e : CtxErr)
  | consume (i : Nat)
deriving DecidableEq

/-- Cancellation of the governing context (first cancellation wins). -/
def cancelCtx (b : Broker) (e : CtxErr) : Broker :=
  match b.ctx with
  | some _ => b
  | none => { b with ctx := some e }

/-- Effect of one step. -/
def step (b : Broker) : Step → Except Panic Broker
  | .register userID recv => .ok (RegisterUser b userID recv)
  | .unregister userID => UnregisterUser b userID
  | .send msg mid pick => .ok (SendMessage b msg mid pick).1
  | .loop pick now => RunStep b pick now
  | .cancel e => .ok (cancelCtx b e)
  | .consume i => .ok { b with heap := Function.update b.heap i (b.heap i).recv }

/-- Run a sequence of steps; a panic ends the run. -/
def exec (b : Broker) : List Step → Except Panic Broker
  | [] => .ok b
  | s :: rest =>
    match step b s with
    | .error p => .error p
    | .ok b1 => exec b1 rest

/-- The message a step gets accepted: `SendMessage` returning nil. -/
def acceptedBy (b : Broker) : Step → List Message
  | .send msg mid pick => if (SendMessage b msg mid pick).2 = none then [msg] else []
  | _ => []

/-- The messages `SendMessage` accepted (returned nil for) along a run, in call order. -/
def accepted (b : Broker) : List Step → List Message
  | [] => []
  | s :: rest =>
    match step b s with
    | .error _ => acceptedBy b s
    | .ok b1 => acceptedBy b s ++ accepted b1 rest

/-! ## Conditions on the registry and the properties under study -/

/-- No registered sink is a closed channel. -/
def SinksOpen (b : Broker) : Prop :=
  ∀ e ∈ b.users, ∀ i, e.2 = some i → (b.heap i).closed = false

/-- No channel object is registered under two entries of the registry. -/
def SinksDistinct (b : Broker) : Prop :=
  (b.users.filterMap Prod.snd).Nodup

/-- Every registered sink is a non-nil open channel and no two entries share a sink. -/
def Healthy (b : Broker) : Prop :=
  (∀ e ∈ b.users, ∃ i, e.2 = some i ∧ (b.heap i).closed = false) ∧
  (b.users.map Prod.snd).Nodup

/-- The sink handed to `RegisterUser` is non-nil, open, and not currently registered under
another identity. -/
def freshSink (b : Broker) (userID : String) : Option Nat → Prop
  | none => False
  | some i => (b.heap i).closed = false ∧ ∀ e ∈ b.users, e.2 = some i → e.1 = userID

/-- Every `RegisterUser` call of the run is given a fresh sink (see `freshSink`). -/
def Admissible : Broker → List Step → Prop
  | _, [] => True
  | b, s :: rest =>
    (match s with
      | .register userID recv => freshSink b userID recv
      | _ => True) ∧
    (match step b s with
      | .ok b1 => Admissible b1 rest
      | .error _ => True)

/-- The message a wake of the loop takes from the queue, if it takes one: none when the
loop has returned, is blocked on an empty queue, or takes the cancellation case. -/
def dequeued (b : Broker) (pick : Bool) : Option Message :=
  if b.done then none
  else
    match b.ctx, b.input with
    | _, [] => none
    | none, msg :: _ => some msg
    | some _, msg :: _ => if pick then some msg else none

/-- The condition a step puts on the registry: a wake of the loop that dequeues a
broadcast message wants pairwise distinct sinks; every other step (also a wake that
dequeues a private message or nothing) wants nothing. -/
def distinctAt (b : Broker) : Step → Prop
  | .loop pick _ => ∀ msg, dequeued b pick = some msg → msg.Broadcast = true → SinksDistinct b
  | _ => True

/-- Whenever the loop dispatches a broadcast message during the run, no channel is
registered under two entries of the registry. -/
def DistinctAlong : Broker → List Step → Prop
  | _, [] => True
  | b, s :: rest =>
    distinctAt b s ∧
    (match step b s with
      | .ok b1 => DistinctAlong b1 rest
      | .error _ => True)

/-- The run completes without a panic. -/
def NoPanic (b : Broker) (steps : List Step) : Prop :=
  ∃ b1, exec b steps = .ok b1

/-- Broadcast delivery as the specification words it: the dispatch completes, and every
registered user whose sink was not full has the message appended to its sink while every
registered user whose sink was full has its sink unchanged. -/
def BroadcastSpec (b : Broker) (msg : Message) : Prop :=
  ∃ b1, broadcastMessage b msg = .ok b1 ∧ b1.users = b.users ∧
    ∀ userID i, lookupUser b.users userID = some (some i) →
      ((b.heap i).full = false →
        b1.heap i = (b.heap i).push msg ∧ (b1.heap i).sent = (b.heap i).sent ++ [msg]) ∧
      ((b.heap i).full = true → b1.heap i = b.heap i)

/-- Unregistration as the specification words it.  Registered user: the call succeeds, the
user's sink is closed by one close, every other channel is untouched, the mapping is
removed, every other mapping is unchanged, a repeated call does nothing (no second close),
and a later `RegisterUser` with another sink installs that sink, untouched by the close.
Unregistered user: the call returns the broker unchanged. -/
def UnregisterSpec (b : Broker) (userID : String) : Prop :=
  match lookupUser b.users userID with
  | none => UnregisterUser b userID = .ok b
  | some ch =>
    ∃ i b1, ch = some i ∧ UnregisterUser b userID = .ok b1 ∧
      b1.heap i = (b.heap i).close ∧ (b1.heap i).closed = true ∧
      (∀ j, j ≠ i → b1.heap j = b.heap j) ∧
      lookupUser b1.users userID = none ∧
      (∀ other, other ≠ userID → lookupUser b1.users other = lookupUser b.users other) ∧
      b1.ctx = b.ctx ∧ b1.input = b.input ∧ b1.done = b.done ∧
      UnregisterUser b1 userID = .ok b1 ∧
      (∀ j, j ≠ i →
        lookupUser (RegisterUser b1 userID (some j)).users userID = some (some j) ∧
        (RegisterUser b1 userID (some j)).heap j = b.heap j)

/-- A delivered copy `d` is the submitted message `m` up to the timestamp rule. -/
def Stamped (d m : Message) : Prop :=
  ∃ now, d = stamp m now

/-- Delivery order as the specification words it: on every channel, what the run adds to
the channel's send history is, up to the timestamp rule, a subsequence of the messages
pending at the start followed by the messages accepted during the run. -/
def OrderSpec (b : Broker) (steps : List Step) : Prop :=
  ∀ b1, exec b steps = .ok b1 → ∀ i, ∃ delivered,
    (b1.heap i).sent = (b.heap i).sent ++ delivered ∧
    List.SublistForall₂ Stamped delivered (b.input ++ accepted b steps)

/-- The timestamp property as the specification words it, for the wake of the loop that
dequeues a message submitted with a zero timestamp at wall-clock time `submitted`, the
clock reading `now` at the wake: every copy added to a sink carries a non-zero timestamp
that is at least `submitted`. -/
def TimestampSpec (b : Broker) (pick : Bool) (submitted now : Int) : Prop :=
  ∀ msg rest b1, b.input = msg :: rest → msg.Timestamp = 0 →
    RunStep b pick now = .ok b1 →
    ∀ i delivered, (b1.heap i).sent = (b.heap i).sent ++ delivered →
      ∀ d ∈ delivered, d.Timestamp ≠ 0 ∧ submitted ≤ d.Timestamp

/-- Private delivery as the specification words it, for a message whose Recipient is
registered: the dispatch completes; a recipient sink that was not full has the message
appended, one that was full is unchanged; and the sink of every other registered user is
unchanged. -/
def PrivateSpec (b : Broker) (msg : Message) : Prop :=
  ∀ ch, lookupUser b.users msg.Recipient = some ch →
    ∃ b1, dispatch b msg = .ok b1 ∧ b1.users = b.users ∧
      (∀ i, ch = some i →
        ((b.heap i).full = false →
          b1.heap i = (b.heap i).push msg ∧ (b1.heap i).sent = (b.heap i).sent ++ [msg]) ∧
        ((b.heap i).full = true → b1.heap i = b.heap i)) ∧
      (∀ other j, other ≠ msg.Recipient → lookupUser b.users other = some (some j) →
        b1.heap j = b.heap j)

/-! ## Sample data used by the concrete evaluations -/

/-- An open, empty channel of capacity `n`. -/
def mkChan (n : Nat) : Chan :=
  { cap := n, buf := [], closed := false, recvq := 0, sent := [] }

/-- A store in which every channel is open, empty and has capacity 2. -/
def heap2 : Nat → Chan := fun _ => mkChan 2

/-- A broadcast message with an explicit timestamp. -/
def hello : Message :=
  { Sender := "alice", Recipient := "", Content := "hi", Broadcast := true, Timestamp := 7 }

/-- A broadcast message with a zero timestamp. -/
def hello0 : Message :=
  { Sender := "alice", Recipient := "", Content := "hi", Broadcast := true, Timestamp := 0 }

/-- A registry in which "alice" and "bob" are registered with the same channel 0. -/
def sharedSink : Broker :=
  { ctx := none, input := [], users := [("bob", some 0), ("alice", some 0)], done := false,
    heap := heap2 }

/-- The state after "alice" has been unregistered from `sharedSink`: "bob" is still
mapped to channel 0, which is now closed. -/
def sharedClosed : Broker :=
  { ctx := none, input := [], users := [("bob", some 0)], done := false,
    heap := Function.update heap2 0 (heap2 0).close }

/-- A cancelled broker with one message still queued and "alice" registered. -/
def cancelledPending : Broker :=
  { ctx := some CtxErr.Canceled, input := [hello], users := [("alice", some 0)],
    done := false, heap := heap2 }

/-- A live broker with one zero-timestamp broadcast queued and "alice" registered. -/
def pendingZero : Broker :=
  { ctx := none, input := [hello0], users := [("alice", some 0)], done := false,
    heap := heap2 }

/-- A run in which every `RegisterUser` is given a fresh sink: two users register, a
broadcast is dispatched, "alice" leaves and returns with a new sink, a second broadcast is
queued, "bob" reads one message, and the context is cancelled. -/
def sampleRun : List Step :=
  [Step.register "alice" (some 0), Step.register "bob" (some 1), Step.send hello none true,
   Step.loop true 5, Step.unregister "alice", Step.register "alice" (some 2),
   Step.send hello0 none true, Step.loop false 9, Step.consume 1,
   Step.cancel CtxErr.Canceled]

/-- A run that registers channel 0 under two identities and dispatches one broadcast. -/
def sharedRun : List Step :=
  [Step.register "alice" (some 0), Step.register "bob" (some 0), Step.send hello none true,
   Step.loop true 0]

/-- A private message to "bob" with an explicit timestamp. -/
def toBob : Message :=
  { Sender := "alice", Recipient := "bob", Content := "psst", Broadcast := false,
    Timestamp := 7 }

/-- A private message to "carol" with a zero timestamp. -/
def toCarol : Message :=
  { Sender := "alice", Recipient := "carol", Content := "psst", Broadcast := false,
    Timestamp := 0 }

/-! ## Basic facts about channels and the registry -/

theorem push_sent (c : Chan) (msg : Message) : (c.push msg).sent = c.sent ++ [msg] := by
  unfold Chan.push
  split <;> rfl

theorem push_closed (c : Chan) (msg : Message) : (c.push msg).closed = c.closed := by
  unfold Chan.push
  split <;> rfl

theorem push_buf (c : Chan) (msg : Message) (h : c.recvq = 0) :
    (c.push msg).buf = c.buf ++ [msg] := by
  unfold Chan.push
  simp [h]

theorem trySend_closed {heap heap1 : Nat → Chan} {ch : Option Nat} {msg : Message}
    (h : trySend heap ch msg = .ok heap1) (j : Nat) :
    (heap1 j).closed = (heap j).closed := by
  unfold trySend at h
  cases ch with
  | none => simp at h; subst h; rfl
  | some i =>
    simp only at h
    split at h
    · cases h
    · split at h
      · simp at h; subst h; rfl
      · simp at h; subst h
        by_cases hj : j = i
        · subst hj; simp [push_closed]
        · simp [Function.update_noteq hj]

theorem trySend_open {heap : Nat → Chan} {i : Nat} (msg : Message)
    (h : (heap i).closed = false) :
    trySend heap (some i) msg =
      .ok (if (heap i).full then heap else Function.update heap i ((heap i).push msg)) := by
  simp only [trySend, h]
  by_cases hf : (heap i).full = true <;> simp [hf]

theorem lookupUser_mem {users : List (String × Option Nat)} {userID : String}
    {ch : Option Nat} (h : lookupUser users userID = some ch) : (userID, ch) ∈ users := by
  induction users with
  | nil => simp [lookupUser] at h
  | cons e rest ih =>
    obtain ⟨k, c⟩ := e
    unfold lookupUser at h
    split at h
    · next hk => simp at h; subst hk; subst h; simp
    · exact List.mem_cons_of_mem _ (ih h)

theorem deleteUser_cons (k : String) (c : Option Nat) (rest : List (String × Option Nat))
    (userID : String) :
    deleteUser ((k, c) :: rest) userID =
      if k = userID then deleteUser rest userID else (k, c) :: deleteUser rest userID := by
  by_cases hk : k = userID <;> simp [deleteUser, List.filter_cons, hk]

theorem lookupUser_deleteUser_self (users : List (String × Option Nat)) (userID : String) :
    lookupUser (deleteUser users userID) userID = none := by
  induction users with
  | nil => rfl
  | cons e rest ih =>
    obtain ⟨k, c⟩ := e
    rw [deleteUser_cons]
    by_cases hk : k = userID
    · simp [hk, ih]
    · simp [hk, lookupUser, ih]

theorem lookupUser_deleteUser_ne (users : List (String × Option Nat)) {userID other : String}
    (h : other ≠ userID) :
    lookupUser (deleteUser users userID) other = lookupUser users other := by
  induction users with
  | nil => rfl
  | cons e rest ih =>
    obtain ⟨k, c⟩ := e
    rw [deleteUser_cons]
    by_cases hk : k = userID
    · have hko : ¬ userID = other := fun h1 => h h1.symm
      simp [hk, lookupUser, ih, hko]
    · by_cases hko : k = other
      · subst hko
        simp [h, lookupUser]
      · simp [hk, lookupUser, hko, ih]

theorem deleteUser_sublist (users : List (String × Option Nat)) (userID : String) :
    (deleteUser users userID).Sublist users :=
  List.filter_sublist users

theorem mem_deleteUser {users : List (String × Option Nat)} {userID : String}
    {e : String × Option Nat} :
    e ∈ deleteUser users userID ↔ e ∈ users ∧ e.1 ≠ userID := by
  simp [deleteUser, List.mem_filter]

/-! ## Frame facts of the dispatch -/

theorem broadcastMessage_frame {b b1 : Broker} {msg : Message}
    (h : broadcastMessage b msg = .ok b1) :
    b1.input = b.input ∧ b1.users = b.users ∧ b1.ctx = b.ctx ∧ b1.done = b.done := by
  unfold broadcastMessage at h
  split at h
  · cases h
  · simp at h; subst h; simp

theorem sendPrivateMessage_frame {b b1 : Broker} {msg : Message}
    (h : sendPrivateMessage b msg = .ok b1) :
    b1.input = b.input ∧ b1.users = b.users ∧ b1.ctx = b.ctx ∧ b1.done = b.done := by
  unfold sendPrivateMessage at h
  split at h
  · split at h
    · cases h
    · simp at h; subst h; simp
  · simp at h; subst h; simp

theorem dispatch_frame {b b1 : Broker} {msg : Message} (h : dispatch b msg = .ok b1) :
    b1.input = b.input ∧ b1.users = b.users ∧ b1.ctx = b.ctx ∧ b1.done = b.done := by
  unfold dispatch at h
  split at h
  · exact broadcastMessage_frame h
  · exact sendPrivateMessage_frame h

/-- What one wake of the loop does to the queue: either the queue is untouched and no
channel changes, or the head was dequeued and dispatched with its timestamp rule applied. -/
theorem RunStep_cases {b b1 : Broker} {pick : Bool} {now : Int}
    (h : RunStep b pick now = .ok b1) :
    (b1.input = b.input ∧ b1.heap = b.heap ∧ b1.users = b.users) ∨
    ∃ msg rest, b.input = msg :: rest ∧ b.done = false ∧
      dispatch { b with input := rest } (stamp msg now) = .ok b1 := by
  unfold RunStep at h
  split at h
  · simp at h; subst h; simp
  · next hd =>
    have hd1 : b.done = false := by simpa using hd
    split at h
    · simp at h; subst h; simp
    · next msg rest hctx hin => exact Or.inr ⟨msg, rest, hin, hd1, h⟩
    · simp at h; subst h; simp
    · next msg rest hctx hin =>
      split at h
      · exact Or.inr ⟨msg, rest, hin, hd1, h⟩
      · simp at h; subst h; simp

theorem SendMessage_frame (b : Broker) (msg : Message) (mid : Option CtxErr) (pick : Bool) :
    (SendMessage b msg mid pick).1.heap = b.heap ∧
    (SendMessage b msg mid pick).1.users = b.users ∧
    (SendMessage b msg mid pick).1.done = b.done ∧
    ((SendMessage b msg mid pick).2 = none →
      (SendMessage b msg mid pick).1.input = b.input ++ [msg] ∧
      b.input.length < inputCap) ∧
    ((SendMessage b msg mid pick).2 ≠ none →
      (SendMessage b msg mid pick).1.input = b.input) := by
  unfold SendMessage
  split
  · simp
  · split
    · split <;> simp_all
    · split <;> simp_all

theorem step_input_le {b b1 : Broker} {s : Step} (h : step b s = .ok b1)
    (hlen : b.input.length ≤ inputCap) : b1.input.length ≤ inputCap := by
  cases s with
  | register userID recv => simp [step, RegisterUser] at h; subst h; exact hlen
  | unregister userID =>
    simp only [step, UnregisterUser] at h
    split at h
    · split at h
      · cases h
      · split at h
        · cases h
        · simp at h; subst h; exact hlen
    · simp at h; subst h; exact hlen
  | send msg mid pick =>
    simp only [step] at h
    simp at h; subst h
    have hf := SendMessage_frame b msg mid pick
    by_cases hr : (SendMessage b msg mid pick).2 = none
    · have := hf.2.2.2.1 hr
      rw [this.1]; simp; omega
    · rw [hf.2.2.2.2 hr]; exact hlen
  | loop pick now =>
    simp only [step] at h
    rcases RunStep_cases h with h1 | ⟨msg, rest, hin, _, hd⟩
    · rw [h1.1]; exact hlen
    · have := (dispatch_frame hd).1
      rw [this]; simp
      rw [hin] at hlen; simp at hlen; omega
  | cancel e =>
    simp only [step, cancelCtx] at h
    split at h <;> (simp at h; subst h; exact hlen)
  | consume i => simp [step] at h; subst h; exact hlen

theorem exec_input_le {steps : List Step} {b b1 : Broker} (h : exec b steps = .ok b1)
    (hlen : b.input.length ≤ inputCap) : b1.input.length ≤ inputCap := by
  induction steps generalizing b with
  | nil => simp [exec] at h; subst h; exact hlen
  | cons s rest ih =>
    unfold exec at h
    split at h
    · cases h
    · next b2 hs => exact ih h (step_input_le hs hlen)

/-! ## SendMessage -/

/-- C2: on a broker whose context is already done, `SendMessage` returns the context's
error and the broker (its inbound queue in particular) is exactly as before, whatever
the queue holds and whatever the scheduler picks. -/
theorem SendMessage_cancelled (b : Broker) (msg : Message) (mid : Option CtxErr)
    (pick : Bool) (e : CtxErr) (hctx : b.ctx = some e) :
    SendMessage b msg mid pick = (b, some (SendErr.ctx e)) := by
  unfold SendMessage
  rw [hctx]

theorem SendMessage_cancelled_witness :
    cancelledPending.ctx = some CtxErr.Canceled ∧
    SendMessage cancelledPending toCarol none true =
      (cancelledPending, some (SendErr.ctx CtxErr.Canceled)) :=
  ⟨rfl, SendMessage_cancelled cancelledPending toCarol none true CtxErr.Canceled rfl⟩

/-- C3: on a broker whose context stays live through the call and whose queue respects the
capacity 100: a queue holding 100 messages makes `SendMessage` return the queue-full
error with the broker unchanged; a shorter queue makes it return nil with the message
appended at the back; and along every run from such a broker the queue never holds more
than 100 messages. -/
theorem SendMessage_live (b : Broker) (msg : Message) (pick : Bool)
    (hctx : b.ctx = none) (hlen : b.input.length ≤ inputCap) :
    inputCap = 100 ∧
    (b.input.length = 100 → SendMessage b msg none pick = (b, some SendErr.inputFull)) ∧
    (b.input.length < 100 →
      SendMessage b msg none pick = ({ b with input := b.input ++ [msg] }, none)) ∧
    (SendMessage b msg none pick).1.input.length ≤ 100 ∧
    (∀ steps b1, exec b steps = .ok b1 → b1.input.length ≤ 100) := by
  refine ⟨rfl, ?_, ?_, ?_, ?_⟩
  · intro hfull
    simp [SendMessage, hctx, hfull, inputCap]
  · intro hroom
    simp [SendMessage, hctx, hroom, inputCap]
  · have h := @step_input_le b _ (Step.send msg none pick) rfl hlen
    simpa [inputCap] using h
  · intro steps b1 h
    have := exec_input_le h hlen
    simpa [inputCap] using this

theorem SendMessage_live_witness :
    (NewBroker none heap2).ctx = none ∧
    (NewBroker none heap2).input.length ≤ inputCap ∧
    SendMessage (NewBroker none heap2) hello none false =
      ({ NewBroker none heap2 with input := (NewBroker none heap2).input ++ [hello] },
        none) :=
  ⟨rfl, by decide,
    (SendMessage_live (NewBroker none heap2) hello false rfl (by decide)).2.2.1
      (by decide)⟩

/-! ## Private message to an unregistered recipient -/

/-- C5: for a live broker with room in the inbound queue and a private message whose
Recipient is not a key of the registry, `SendMessage` returns nil (the message is queued),
and dispatching the message is a no-op: `sendPrivateMessage` returns the broker unchanged
(same registry, every channel untouched, no panic), also when reached through a wake of
the loop that dequeues it. -/
theorem private_unregistered_noop (b : Broker) (msg : Message) (pick : Bool) (now : Int)
    (hctx : b.ctx = none) (hroom : b.input.length < inputCap)
    (hpriv : msg.Broadcast = false)
    (hun : lookupUser b.users msg.Recipient = none) :
    SendMessage b msg none pick = ({ b with input := b.input ++ [msg] }, none) ∧
    sendPrivateMessage b (stamp msg now) = .ok b ∧
    dispatch b (stamp msg now) = .ok b ∧
    (∀ rest pick2, b.done = false →
      RunStep { b with input := msg :: rest } pick2 now = .ok { b with input := rest }) := by
  have hrec : (stamp msg now).Recipient = msg.Recipient := by
    unfold stamp; split <;> rfl
  have hbc : (stamp msg now).Broadcast = false := by
    unfold stamp; split <;> simp [hpriv]
  have hp : ∀ b2 : Broker, b2.users = b.users →
      sendPrivateMessage b2 (stamp msg now) = .ok b2 := by
    intro b2 hu
    unfold sendPrivateMessage
    rw [hrec, hu, hun]
  have hd : ∀ b2 : Broker, b2.users = b.users → dispatch b2 (stamp msg now) = .ok b2 := by
    intro b2 hu
    unfold dispatch
    rw [hbc]
    simpa using hp b2 hu
  refine ⟨?_, hp b rfl, hd b rfl, ?_⟩
  · simp [SendMessage, hctx, hroom]
  · intro rest pick2 hdone
    unfold RunStep
    simp only [hdone, hctx]
    exact hd _ rfl

theorem private_unregistered_noop_witness :
    toCarol.Broadcast = false ∧
    lookupUser (RegisterUser (NewBroker none heap2) "alice" (some 0)).users
      toCarol.Recipient = none ∧
    sendPrivateMessage (RegisterUser (NewBroker none heap2) "alice" (some 0))
      (stamp toCarol 1700000000) =
      .ok (RegisterUser (NewBroker none heap2) "alice" (some 0)) :=
  ⟨rfl, by decide,
    (private_unregistered_noop (RegisterUser (NewBroker none heap2) "alice" (some 0))
      toCarol true 1700000000 rfl (by decide) rfl (by decide)).2.1⟩

/-! ## RegisterUser -/

/-- C10: `RegisterUser` always succeeds; afterwards the registry maps `userID` to the given
sink and agrees with the old registry on every other identity; no channel object is
touched (so a sink previously mapped to `userID` is neither closed nor written to), and
the context, the inbound queue and the loop state are unchanged. -/
theorem RegisterUser_spec (b : Broker) (userID : String) (recv : Option Nat) :
    step b (Step.register userID recv) = .ok (RegisterUser b userID recv) ∧
    lookupUser (RegisterUser b userID recv).users userID = some recv ∧
    (∀ other, other ≠ userID →
      lookupUser (RegisterUser b userID recv).users other = lookupUser b.users other) ∧
    (RegisterUser b userID recv).heap = b.heap ∧
    (RegisterUser b userID recv).ctx = b.ctx ∧
    (RegisterUser b userID recv).input = b.input ∧
    (RegisterUser b userID recv).done = b.done := by
  refine ⟨rfl, ?_, ?_, rfl, rfl, rfl, rfl⟩
  · simp [RegisterUser, setUser, lookupUser]
  · intro other hne
    have hne2 : ¬ userID = other := fun h => hne h.symm
    simp [RegisterUser, setUser, lookupUser, hne2, lookupUser_deleteUser_ne _ hne]

/-! ## The broadcast loop -/

theorem trySend_cases {heap heap1 : Nat → Chan} {ch : Option Nat} {msg : Message}
    (h : trySend heap ch msg = .ok heap1) :
    heap1 = heap ∨
    ∃ i, ch = some i ∧ (heap i).closed = false ∧ (heap i).full = false ∧
      heap1 = Function.update heap i ((heap i).push msg) := by
  unfold trySend at h
  cases ch with
  | none => simp at h; exact Or.inl h.symm
  | some i =>
    simp only at h
    split at h
    · cases h
    · next hc =>
      split at h
      · simp at h; exact Or.inl h.symm
      · next hf =>
        simp at h
        exact Or.inr ⟨i, rfl, by simpa using hc, by simpa using hf, h.symm⟩

theorem sendAll_closed {users : List (String × Option Nat)} {heap heap1 : Nat → Chan}
    {msg : Message} (h : sendAll heap users msg = .ok heap1) (j : Nat) :
    (heap1 j).closed = (heap j).closed := by
  induction users generalizing heap with
  | nil => simp [sendAll] at h; subst h; rfl
  | cons e rest ih =>
    obtain ⟨k, ch⟩ := e
    unfold sendAll at h
    split at h
    · cases h
    · next heapm hm => rw [ih h, trySend_closed hm]

theorem sendAll_ok_of_open (users : List (String × Option Nat)) (heap : Nat → Chan)
    (msg : Message)
    (hopen : ∀ e ∈ users, ∀ i, e.2 = some i → (heap i).closed = false) :
    ∃ heap1, sendAll heap users msg = .ok heap1 := by
  induction users generalizing heap with
  | nil => exact ⟨heap, rfl⟩
  | cons e rest ih =>
    obtain ⟨k, ch⟩ := e
    have hstep : ∃ heapm, trySend heap ch msg = .ok heapm := by
      cases ch with
      | none => exact ⟨heap, rfl⟩
      | some i =>
        exact ⟨_, trySend_open msg (hopen (k, some i) (List.mem_cons_self _ _) i rfl)⟩
    obtain ⟨heapm, hm⟩ := hstep
    have hopen2 : ∀ e ∈ rest, ∀ i, e.2 = some i → (heapm i).closed = false := by
      intro e he i hi
      rw [trySend_closed hm]
      exact hopen e (List.mem_cons_of_mem _ he) i hi
    obtain ⟨heap1, h1⟩ := ih heapm hopen2
    refine ⟨heap1, ?_⟩
    unfold sendAll
    rw [hm]
    exact h1

/-- With pairwise distinct sinks the broadcast loop touches each registered channel once:
a channel that is registered and not full gets the message, every other channel is as
before. -/
theorem sendAll_exact {users : List (String × Option Nat)} {heap heap1 : Nat → Chan}
    {msg : Message} (h : sendAll heap users msg = .ok heap1)
    (hnd : (users.filterMap Prod.snd).Nodup) (i : Nat) :
    heap1 i = if i ∈ users.filterMap Prod.snd ∧ (heap i).full = false
      then (heap i).push msg else heap i := by
  induction users generalizing heap with
  | nil => simp [sendAll] at h; subst h; simp
  | cons e rest ih =>
    obtain ⟨k, ch⟩ := e
    unfold sendAll at h
    split at h
    · cases h
    · next heapm hm =>
      cases ch with
      | none =>
        have hnd2 : (rest.filterMap Prod.snd).Nodup := by simpa [List.filterMap_cons] using hnd
        have hmm : heapm = heap := by
          simp [trySend] at hm; exact hm.symm
        subst hmm
        simpa [List.filterMap_cons] using ih h hnd2
      | some j =>
        have hnd1 : (j :: rest.filterMap Prod.snd).Nodup := by
          simpa [List.filterMap_cons] using hnd
        obtain ⟨hj, hnd2⟩ := List.nodup_cons.mp hnd1
        have hi := ih h hnd2
        have hc : (heap j).closed = false := by
          cases hcl : (heap j).closed with
          | false => rfl
          | true => simp [trySend, hcl] at hm
        rw [trySend_open msg hc] at hm
        have hmeq : heapm =
            if (heap j).full then heap else Function.update heap j ((heap j).push msg) := by
          injection hm with hm; exact hm.symm
        by_cases hij : i = j
        · subst hij
          rw [hi]
          simp only [hj, false_and, if_false]
          rw [hmeq]
          by_cases hf : (heap i).full = true
          · simp [hf]
          · simp [hf]
        · have hmi : heapm i = heap i := by
            rw [hmeq]
            by_cases hf : (heap j).full = true
            · simp [hf]
            · simp [hf, Function.update_noteq hij]
          rw [hi, hmi]
          have hmem : (i ∈ ((k, some j) :: rest).filterMap Prod.snd) ↔
              i ∈ rest.filterMap Prod.snd := by
            simp [List.filterMap_cons, hij]
          simp only [hmem]

theorem trySend_sent {heap heap1 : Nat → Chan} {ch : Option Nat} {msg : Message}
    (h : trySend heap ch msg = .ok heap1) (i : Nat) :
    (heap1 i).sent = (heap i).sent ∨ (heap1 i).sent = (heap i).sent ++ [msg] := by
  rcases trySend_cases h with h0 | ⟨j, _, _, _, hup⟩
  · rw [h0]; exact Or.inl rfl
  · rw [hup]
    by_cases hij : i = j
    · subst hij
      rw [Function.update_same, push_sent]
      exact Or.inr rfl
    · rw [Function.update_noteq hij]
      exact Or.inl rfl

/-- Whatever the registry looks like, the broadcast loop only ever appends copies of the
message being dispatched to a send history. -/
theorem sendAll_sent {users : List (String × Option Nat)} {heap heap1 : Nat → Chan}
    {msg : Message} (h : sendAll heap users msg = .ok heap1) (i : Nat) :
    ∃ k, (heap1 i).sent = (heap i).sent ++ List.replicate k msg := by
  induction users generalizing heap with
  | nil => simp [sendAll] at h; subst h; exact ⟨0, by simp⟩
  | cons e rest ih =>
    obtain ⟨k, ch⟩ := e
    unfold sendAll at h
    split at h
    · cases h
    · next heapm hm =>
      obtain ⟨n, hn⟩ := ih h
      rcases trySend_sent hm i with h0 | h1
      · exact ⟨n, by rw [hn, h0]⟩
      · refine ⟨n + 1, ?_⟩
        rw [hn, h1, List.append_assoc]
        congr 1

/-- C4 (as worded, refuted): registering one channel under "alice" and "bob" gives the
registry `sharedSink`, and unregistering "alice" from it gives `sharedClosed`.  In
`sharedClosed` "bob" sits on a closed channel and the broadcast panics instead of
delivering; in `sharedSink` the shared channel receives the message twice rather than
having it appended. -/
theorem broadcast_spec_fails :
    exec (NewBroker none heap2)
      [Step.register "alice" (some 0), Step.register "bob" (some 0)] = .ok sharedSink ∧
    exec sharedSink [Step.unregister "alice"] = .ok sharedClosed ∧
    broadcastMessage sharedClosed hello = .error Panic.sendOnClosed ∧
    ¬ BroadcastSpec sharedClosed hello ∧ ¬ BroadcastSpec sharedSink hello := by
  refine ⟨rfl, rfl, rfl, ?_, ?_⟩
  · rintro ⟨b1, h, _⟩
    have h2 : broadcastMessage sharedClosed hello = .error Panic.sendOnClosed := rfl
    rw [h2] at h
    cases h
  · rintro ⟨b1, h, _, hall⟩
    have hs := ((hall "bob" 0 rfl).1 rfl).2
    have h2 : ∃ b2, broadcastMessage sharedSink hello = .ok b2 ∧
        (b2.heap 0).sent = [hello, hello] := ⟨_, rfl, rfl⟩
    obtain ⟨b2, hb2, hsent⟩ := h2
    rw [hb2] at h
    injection h with h
    subst h
    rw [hsent] at hs
    simp [sharedSink, heap2, mkChan] at hs

/-- A channel that is full when the broadcast starts is left exactly as it was. -/
theorem sendAll_full {users : List (String × Option Nat)} {heap heap1 : Nat → Chan}
    {msg : Message} (h : sendAll heap users msg = .ok heap1) (i : Nat)
    (hf : (heap i).full = true) : heap1 i = heap i := by
  induction users generalizing heap with
  | nil => simp [sendAll] at h; subst h; rfl
  | cons e rest ih =>
    obtain ⟨k, ch⟩ := e
    unfold sendAll at h
    split at h
    · cases h
    · next heapm hm =>
      have hmi : heapm i = heap i := by
        rcases trySend_cases hm with h0 | ⟨j, _, _, hfj, hup⟩
        · rw [h0]
        · have hij : i ≠ j := by
            intro hij; subst hij; rw [hf] at hfj; cases hfj
          rw [hup, Function.update_noteq hij]
      rw [ih h (by rw [hmi]; exact hf), hmi]

/-- A registered channel that is not full when the broadcast starts receives the message
at least once (once per entry that names it, while it has room). -/
theorem sendAll_delivers {users : List (String × Option Nat)} {heap heap1 : Nat → Chan}
    {msg : Message} (h : sendAll heap users msg = .ok heap1) (i : Nat)
    (hmem : i ∈ users.filterMap Prod.snd) (hf : (heap i).full = false) :
    ∃ k, 1 ≤ k ∧ (heap1 i).sent = (heap i).sent ++ List.replicate k msg := by
  induction users generalizing heap with
  | nil => simp at hmem
  | cons e rest ih =>
    obtain ⟨k, ch⟩ := e
    unfold sendAll at h
    split at h
    · cases h
    · next heapm hm =>
      by_cases hch : ch = some i
      · subst hch
        have hpush : (heapm i).sent = (heap i).sent ++ [msg] := by
          rcases trySend_cases hm with h0 | ⟨j, hj, _, _, hup⟩
          · exfalso
            simp only [trySend] at hm
            split at hm
            · cases hm
            · simp [hf] at hm
              have := congrArg Chan.sent (congrFun hm i)
              rw [h0] at this
              simp [push_sent] at this
          · injection hj with hj
            subst hj
            rw [hup, Function.update_same, push_sent]
        obtain ⟨n, hn⟩ := sendAll_sent h i
        refine ⟨n + 1, by omega, ?_⟩
        rw [hn, hpush, List.append_assoc]
        congr 1
      · have hmi : heapm i = heap i := by
          rcases trySend_cases hm with h0 | ⟨j, hj, _, _, hup⟩
          · rw [h0]
          · have hij : i ≠ j := by
              intro hij; subst hij; exact hch hj
            rw [hup, Function.update_noteq hij]
        have hmem2 : i ∈ rest.filterMap Prod.snd := by
          cases ch with
          | none => simpa [List.filterMap_cons] using hmem
          | some j =>
            have hji : ¬ i = j := fun hij => hch (by rw [hij])
            simpa [List.filterMap_cons, hji] using hmem
        obtain ⟨n, hn1, hn⟩ := ih h hmem2 (by rw [hmi]; exact hf)
        exact ⟨n, hn1, by rw [hn, hmi]⟩

/-- C4 (amended): when every registered sink is open, the broadcast completes; every
registered user whose sink was full has its sink unchanged (so a full sink never blocks
delivery to another user); every registered user whose sink was not full has the message
appended to its sink, exactly once when no channel is registered under two identities
(the claim as worded) and at least once in general. -/
theorem broadcast_delivers (b : Broker) (msg : Message) (hopen : SinksOpen b) :
    (SinksDistinct b → BroadcastSpec b msg) ∧
    ∃ b1, broadcastMessage b msg = .ok b1 ∧ b1.users = b.users ∧
      ∀ userID i, lookupUser b.users userID = some (some i) →
        ((b.heap i).full = false →
          ∃ k, 1 ≤ k ∧ (b1.heap i).sent = (b.heap i).sent ++ List.replicate k msg) ∧
        ((b.heap i).full = true → b1.heap i = b.heap i) := by
  obtain ⟨heap1, h1⟩ := sendAll_ok_of_open b.users b.heap msg hopen
  have hb : broadcastMessage b msg = .ok { b with heap := heap1 } := by
    unfold broadcastMessage
    rw [h1]
  have hmem : ∀ userID i, lookupUser b.users userID = some (some i) →
      i ∈ b.users.filterMap Prod.snd := by
    intro userID i hl
    rw [List.mem_filterMap]
    exact ⟨(userID, some i), lookupUser_mem hl, rfl⟩
  constructor
  · intro hdist
    refine ⟨{ b with heap := heap1 }, hb, rfl, ?_⟩
    intro userID i hl
    have hex := sendAll_exact h1 hdist i
    constructor
    · intro hf
      have : heap1 i = (b.heap i).push msg := by
        rw [hex]; simp [hmem userID i hl, hf]
      exact ⟨this, by show (heap1 i).sent = _; rw [this, push_sent]⟩
    · intro hf
      exact sendAll_full h1 i hf
  · refine ⟨{ b with heap := heap1 }, hb, rfl, ?_⟩
    intro userID i hl
    exact ⟨fun hf => sendAll_delivers h1 i (hmem userID i hl) hf,
      fun hf => sendAll_full h1 i hf⟩

theorem broadcast_delivers_witness :
    SinksOpen (RegisterUser (RegisterUser (NewBroker none heap2) "alice" (some 0)) "bob"
      (some 1)) ∧
    BroadcastSpec (RegisterUser (RegisterUser (NewBroker none heap2) "alice" (some 0)) "bob"
      (some 1)) hello := by
  have ho : SinksOpen (RegisterUser (RegisterUser (NewBroker none heap2) "alice" (some 0))
      "bob" (some 1)) := by
    intro e he i hi
    rfl
  exact ⟨ho, (broadcast_delivers _ hello ho).1 (by unfold SinksDistinct; decide)⟩

/-! ## UnregisterUser -/

/-- C7 (as worded, refuted): registering one channel under "alice" and "bob" and then
unregistering "alice" leaves "bob" registered on a closed channel, and `UnregisterUser`
for "bob" panics with a second close; a user registered with the nil channel makes
`UnregisterUser` panic as well. -/
theorem unregister_spec_fails :
    exec (NewBroker none heap2)
      [Step.register "alice" (some 0), Step.register "bob" (some 0),
       Step.unregister "alice"] = .ok sharedClosed ∧
    UnregisterUser sharedClosed "bob" = .error Panic.closeOfClosed ∧
    ¬ UnregisterSpec sharedClosed "bob" ∧
    UnregisterUser (RegisterUser (NewBroker none heap2) "alice" none) "alice" =
      .error Panic.closeOfNil ∧
    ¬ UnregisterSpec (RegisterUser (NewBroker none heap2) "alice" none) "alice" := by
  refine ⟨rfl, rfl, ?_, rfl, ?_⟩
  · intro h
    have hl : lookupUser sharedClosed.users "bob" = some (some 0) := rfl
    unfold UnregisterSpec at h
    rw [hl] at h
    obtain ⟨i, b1, _, hu, _⟩ := h
    have h2 : UnregisterUser sharedClosed "bob" = .error Panic.closeOfClosed := rfl
    rw [h2] at hu
    cases hu
  · intro h
    have hl : lookupUser (RegisterUser (NewBroker none heap2) "alice" none).users "alice" =
        some none := rfl
    unfold UnregisterSpec at h
    rw [hl] at h
    obtain ⟨i, b1, hi, _⟩ := h
    cases hi

/-- C7 (amended): when `userID` is registered with a non-nil sink that is still open,
`UnregisterUser` succeeds, closes that sink by one close, touches no other channel,
removes the mapping and leaves every other mapping unchanged; a repeated call is a no-op,
and a later `RegisterUser` with another sink installs that sink untouched by the close.
When `userID` is not registered the call returns the broker unchanged. -/
theorem unregister_closes_once (b : Broker) (userID : String)
    (hsink : ∀ ch, lookupUser b.users userID = some ch →
      ∃ i, ch = some i ∧ (b.heap i).closed = false) :
    UnregisterSpec b userID := by
  unfold UnregisterSpec
  cases hl : lookupUser b.users userID with
  | none =>
    simp only
    unfold UnregisterUser
    rw [hl]
  | some ch =>
    simp only
    obtain ⟨i, hch, hopen⟩ := hsink ch hl
    subst hch
    refine ⟨i, { b with heap := Function.update b.heap i (b.heap i).close,
                        users := deleteUser b.users userID }, rfl, ?_, ?_, ?_, ?_, ?_, ?_,
      rfl, rfl, rfl, ?_, ?_⟩
    · unfold UnregisterUser
      rw [hl]
      simp [hopen]
    · simp
    · simp [Chan.close]
    · intro j hj
      simp [Function.update_noteq hj]
    · exact lookupUser_deleteUser_self _ _
    · intro other hne
      exact lookupUser_deleteUser_ne _ hne
    · unfold UnregisterUser
      simp only [lookupUser_deleteUser_self]
    · intro j hj
      constructor
      · simp [RegisterUser, setUser, lookupUser]
      · simp [RegisterUser, Function.update_noteq hj]

theorem unregister_closes_once_witness :
    lookupUser (RegisterUser (NewBroker none heap2) "alice" (some 0)).users "alice" =
      some (some 0) ∧
    UnregisterSpec (RegisterUser (NewBroker none heap2) "alice" (some 0)) "alice" := by
  refine ⟨rfl, unregister_closes_once _ _ ?_⟩
  intro ch hch
  have hl : lookupUser (RegisterUser (NewBroker none heap2) "alice" (some 0)).users "alice" =
      some (some 0) := rfl
  rw [hl] at hch
  injection hch with hch
  exact ⟨0, hch.symm, rfl⟩

/-! ## Runs that never panic -/

theorem recv_closed (c : Chan) : c.recv.closed = c.closed := by
  unfold Chan.recv
  split
  · rfl
  · split <;> rfl

theorem Healthy.sinksOpen {b : Broker} (h : Healthy b) : SinksOpen b := by
  intro e he i hi
  obtain ⟨j, hj, hopen⟩ := h.1 e he
  rw [hi] at hj
  injection hj with hj
  subst hj
  exact hopen

theorem healthy_congr {b b1 : Broker} (hu : b1.users = b.users)
    (hc : ∀ j, (b1.heap j).closed = (b.heap j).closed) (h : Healthy b) : Healthy b1 := by
  unfold Healthy
  rw [hu]
  refine ⟨?_, h.2⟩
  intro e he
  obtain ⟨i, hi, hopen⟩ := h.1 e he
  exact ⟨i, hi, by rw [hc]; exact hopen⟩

theorem dispatch_ok_of_open (b : Broker) (msg : Message) (hopen : SinksOpen b) :
    ∃ b1, dispatch b msg = .ok b1 ∧ b1.users = b.users ∧
      ∀ j, (b1.heap j).closed = (b.heap j).closed := by
  unfold dispatch
  split
  · obtain ⟨heap1, h1⟩ := sendAll_ok_of_open b.users b.heap msg hopen
    refine ⟨{ b with heap := heap1 }, ?_, rfl, fun j => sendAll_closed h1 j⟩
    unfold broadcastMessage
    rw [h1]
  · unfold sendPrivateMessage
    cases hl : lookupUser b.users msg.Recipient with
    | none => exact ⟨b, rfl, rfl, fun _ => rfl⟩
    | some ch =>
      cases ch with
      | none => exact ⟨b, rfl, rfl, fun _ => rfl⟩
      | some i =>
        have ho := hopen _ (lookupUser_mem hl) i rfl
        have ht : trySend b.heap (some i) msg = _ := trySend_open msg ho
        refine ⟨{ b with heap := if (b.heap i).full then b.heap
            else Function.update b.heap i ((b.heap i).push msg) }, ?_, rfl,
          fun j => trySend_closed ht j⟩
        simp only [ht]

theorem RunStep_ok_of_open (b : Broker) (pick : Bool) (now : Int) (hopen : SinksOpen b) :
    ∃ b1, RunStep b pick now = .ok b1 ∧ b1.users = b.users ∧
      ∀ j, (b1.heap j).closed = (b.heap j).closed := by
  have hd : ∀ rest msg, ∃ b1, dispatch { b with input := rest } msg = .ok b1 ∧
      b1.users = b.users ∧ ∀ j, (b1.heap j).closed = (b.heap j).closed := by
    intro rest msg
    exact dispatch_ok_of_open { b with input := rest } msg hopen
  unfold RunStep
  split
  · exact ⟨b, rfl, rfl, fun _ => rfl⟩
  · split
    · exact ⟨b, rfl, rfl, fun _ => rfl⟩
    · exact hd _ _
    · exact ⟨_, rfl, rfl, fun _ => rfl⟩
    · split
      · exact hd _ _
      · exact ⟨_, rfl, rfl, fun _ => rfl⟩

theorem RegisterUser_healthy {b : Broker} {userID : String} {recv : Option Nat}
    (h : Healthy b) (hf : freshSink b userID recv) : Healthy (RegisterUser b userID recv) := by
  cases recv with
  | none => exact absurd hf (by simp [freshSink])
  | some i =>
    obtain ⟨hopen, huniq⟩ := hf
    constructor
    · intro e he
      simp only [RegisterUser, setUser, List.mem_cons] at he
      rcases he with he | he
      · subst he; exact ⟨i, rfl, hopen⟩
      · exact h.1 e (mem_deleteUser.mp he).1
    · simp only [RegisterUser, setUser, List.map_cons]
      rw [List.nodup_cons]
      constructor
      · intro hmem
        rw [List.mem_map] at hmem
        obtain ⟨e, he, hei⟩ := hmem
        obtain ⟨he1, he2⟩ := mem_deleteUser.mp he
        exact he2 (huniq e he1 hei)
      · exact List.Nodup.sublist ((deleteUser_sublist b.users userID).map Prod.snd) h.2

theorem UnregisterUser_healthy {b : Broker} {userID : String} (h : Healthy b) :
    ∃ b1, UnregisterUser b userID = .ok b1 ∧ Healthy b1 := by
  unfold UnregisterUser
  cases hl : lookupUser b.users userID with
  | none => exact ⟨b, rfl, h⟩
  | some ch =>
    have hmem := lookupUser_mem hl
    obtain ⟨i, hi, hopen⟩ := h.1 _ hmem
    simp only at hi
    subst hi
    simp only [hopen]
    refine ⟨_, rfl, ?_, ?_⟩
    · intro e he
      obtain ⟨he1, he2⟩ := mem_deleteUser.mp he
      obtain ⟨j, hj, hjopen⟩ := h.1 e he1
      refine ⟨j, hj, ?_⟩
      have hji : j ≠ i := by
        intro hji
        subst hji
        have := List.inj_on_of_nodup_map h.2 he1 hmem (by simp [hj])
        exact he2 (by rw [this])
      simp only [Function.update_noteq hji]
      exact hjopen
    · exact List.Nodup.sublist ((deleteUser_sublist b.users userID).map Prod.snd) h.2

theorem step_healthy {b : Broker} {s : Step} (h : Healthy b)
    (hs : match s with
      | .register userID recv => freshSink b userID recv
      | _ => True) :
    ∃ b1, step b s = .ok b1 ∧ Healthy b1 := by
  cases s with
  | register userID recv => exact ⟨_, rfl, RegisterUser_healthy h hs⟩
  | unregister userID => exact UnregisterUser_healthy h
  | send msg mid pick =>
    have hf := SendMessage_frame b msg mid pick
    exact ⟨_, rfl, healthy_congr hf.2.1 (fun j => by rw [hf.1]) h⟩
  | loop pick now =>
    obtain ⟨b1, h1, hu, hc⟩ := RunStep_ok_of_open b pick now h.sinksOpen
    exact ⟨b1, h1, healthy_congr hu hc h⟩
  | cancel e =>
    refine ⟨_, rfl, @healthy_congr b _ ?_ ?_ h⟩
    · unfold cancelCtx; split <;> rfl
    · intro j; unfold cancelCtx; split <;> rfl
  | consume i =>
    refine ⟨_, rfl, @healthy_congr b _ rfl ?_ h⟩
    intro j
    by_cases hj : j = i
    · subst hj; simp [recv_closed]
    · simp [Function.update_noteq hj]

theorem exec_healthy {steps : List Step} {b : Broker} (h : Healthy b)
    (ha : Admissible b steps) : ∃ b1, exec b steps = .ok b1 ∧ Healthy b1 := by
  induction steps generalizing b with
  | nil => exact ⟨b, rfl, h⟩
  | cons s rest ih =>
    obtain ⟨ha1, ha2⟩ := ha
    obtain ⟨b1, hs, hh⟩ := step_healthy h ha1
    rw [hs] at ha2
    obtain ⟨b2, he, hh2⟩ := ih hh ha2
    refine ⟨b2, ?_, hh2⟩
    unfold exec
    rw [hs]
    exact he

theorem healthy_new (ctx : Option CtxErr) (heap : Nat → Chan) :
    Healthy (NewBroker ctx heap) := by
  constructor
  · intro e he; cases he
  · exact List.nodup_nil

/-- C1 (as worded, refuted): from a new broker, registering one channel under two
identities, unregistering the first, and dispatching a broadcast makes the dispatch send
on the channel `UnregisterUser` closed: the run panics. -/
theorem closed_sink_send :
    exec (NewBroker none heap2)
      [Step.register "alice" (some 0), Step.register "bob" (some 0),
       Step.unregister "alice", Step.send hello none true, Step.loop true 0] =
      .error Panic.sendOnClosed ∧
    ¬ NoPanic (NewBroker none heap2)
      [Step.register "alice" (some 0), Step.register "bob" (some 0),
       Step.unregister "alice", Step.send hello none true, Step.loop true 0] := by
  refine ⟨rfl, ?_⟩
  rintro ⟨b1, h⟩
  have h2 : exec (NewBroker none heap2)
      [Step.register "alice" (some 0), Step.register "bob" (some 0),
       Step.unregister "alice", Step.send hello none true, Step.loop true 0] =
      .error Panic.sendOnClosed := rfl
  rw [h2] at h
  cases h

/-- C1 (amended): starting from a broker whose registered sinks are non-nil, open and
pairwise distinct, every run of RegisterUser / UnregisterUser / SendMessage calls, loop
wakes, cancellations and consumer receives in which each `RegisterUser` is given a
non-nil open sink not registered under another identity completes without a panic (no
send on a closed sink, no second close), and the registry keeps that shape. -/
theorem no_panic_of_fresh_sinks (b : Broker) (steps : List Step)
    (h : Healthy b) (ha : Admissible b steps) :
    NoPanic b steps ∧ ∀ b1, exec b steps = .ok b1 → Healthy b1 := by
  obtain ⟨b1, he, hh⟩ := exec_healthy h ha
  refine ⟨⟨b1, he⟩, ?_⟩
  intro b2 he2
  rw [he] at he2
  injection he2 with he2
  subst he2
  exact hh

theorem no_panic_of_fresh_sinks_witness :
    Admissible (NewBroker none heap2) sampleRun ∧ NoPanic (NewBroker none heap2) sampleRun := by
  have ha : Admissible (NewBroker none heap2) sampleRun := by
    simp [Admissible, sampleRun, freshSink, step, RegisterUser, UnregisterUser, NewBroker,
      setUser, deleteUser, lookupUser, SendMessage, RunStep, dispatch, broadcastMessage,
      sendAll, trySend, heap2, mkChan, hello, hello0, stamp, Chan.close, Chan.full,
      Chan.push, inputCap, Function.update, cancelCtx]
  exact ⟨ha, (no_panic_of_fresh_sinks _ _ (healthy_new none heap2) ha).1⟩

/-! ## What a dispatch adds to the send histories -/

theorem recv_sent (c : Chan) : c.recv.sent = c.sent := by
  unfold Chan.recv
  split
  · rfl
  · split <;> rfl

theorem dispatch_sent {b b1 : Broker} {msg : Message} (h : dispatch b msg = .ok b1)
    (i : Nat) : ∃ k, (b1.heap i).sent = (b.heap i).sent ++ List.replicate k msg := by
  unfold dispatch at h
  split at h
  · unfold broadcastMessage at h
    split at h
    · cases h
    · next heap1 h1 =>
      simp at h; subst h
      exact sendAll_sent h1 i
  · unfold sendPrivateMessage at h
    split at h
    · split at h
      · cases h
      · next heap1 h1 =>
        simp at h; subst h
        rcases trySend_sent h1 i with h0 | h2
        · exact ⟨0, by simpa using h0⟩
        · exact ⟨1, by simpa using h2⟩
    · simp at h; subst h
      exact ⟨0, by simp⟩

/-- One dispatch adds at most one copy to any channel: always for a private message, and
for a broadcast when the sinks are pairwise distinct. -/
theorem dispatch_sent_distinct {b b1 : Broker} {msg : Message}
    (h : dispatch b msg = .ok b1) (hd : msg.Broadcast = true → SinksDistinct b) (i : Nat) :
    (b1.heap i).sent = (b.heap i).sent ∨ (b1.heap i).sent = (b.heap i).sent ++ [msg] := by
  unfold dispatch at h
  split at h
  · next hbc =>
    unfold broadcastMessage at h
    split at h
    · cases h
    · next heap1 h1 =>
      simp at h; subst h
      have hex := sendAll_exact h1 (hd hbc) i
      simp only
      rw [hex]
      split
      · rw [push_sent]; exact Or.inr rfl
      · exact Or.inl rfl
  · unfold sendPrivateMessage at h
    split at h
    · split at h
      · cases h
      · next heap1 h1 =>
        simp at h; subst h
        exact trySend_sent h1 i
    · simp at h; subst h
      exact Or.inl rfl

theorem stamp_Broadcast (msg : Message) (now : Int) :
    (stamp msg now).Broadcast = msg.Broadcast := by
  unfold stamp
  split <;> rfl

/-- A wake of the loop that changes a channel or the queue dispatches exactly the message
`dequeued` names. -/
theorem RunStep_dequeued {b b1 : Broker} {pick : Bool} {now : Int}
    (h : RunStep b pick now = .ok b1) :
    (b1.input = b.input ∧ b1.heap = b.heap ∧ b1.users = b.users) ∨
    ∃ msg rest, b.input = msg :: rest ∧ dequeued b pick = some msg ∧
      dispatch { b with input := rest } (stamp msg now) = .ok b1 := by
  unfold RunStep at h
  split at h
  · simp at h; subst h; simp
  · next hd =>
    have hd1 : b.done = false := by simpa using hd
    split at h
    · simp at h; subst h; simp
    · next msg rest hctx hin =>
      have hdq : dequeued b pick = some msg := by
        unfold dequeued
        simp [hd1, hctx, hin]
      exact Or.inr ⟨msg, rest, hin, hdq, h⟩
    · simp at h; subst h; simp
    · next e msg rest hctx hin =>
      split at h
      · next hp =>
        have hdq : dequeued b pick = some msg := by
          unfold dequeued
          simp [hd1, hctx, hin, hp]
        exact Or.inr ⟨msg, rest, hin, hdq, h⟩
      · simp at h; subst h; simp

theorem UnregisterUser_frame {b b1 : Broker} {userID : String}
    (h : UnregisterUser b userID = .ok b1) :
    b1.input = b.input ∧ ∀ i, (b1.heap i).sent = (b.heap i).sent := by
  unfold UnregisterUser at h
  split at h
  · split at h
    · cases h
    · next _ j _ =>
      split at h
      · cases h
      · simp at h; subst h
        refine ⟨rfl, fun i => ?_⟩
        by_cases hij : i = j
        · subst hij; simp [Chan.close]
        · simp [Function.update_noteq hij]
  · simp at h; subst h
    exact ⟨rfl, fun _ => rfl⟩

theorem stamped_stamp (msg : Message) (now : Int) : Stamped (stamp msg now) msg :=
  ⟨now, rfl⟩

/-- One step of a run, seen from a channel: what the step adds to the send history is
matched against the front of the pending messages. -/
theorem step_bridge {b b1 : Broker} {s : Step} (hs : step b s = .ok b1)
    (hd : distinctAt b s) (i : Nat) :
    ∃ d0, (b1.heap i).sent = (b.heap i).sent ++ d0 ∧
      ∀ d1 tail, List.SublistForall₂ Stamped d1 (b1.input ++ tail) →
        List.SublistForall₂ Stamped (d0 ++ d1) (b.input ++ (acceptedBy b s ++ tail)) := by
  cases s with
  | register userID recv =>
    simp [step, RegisterUser] at hs; subst hs
    exact ⟨[], by simp, fun d1 tail h => by simpa [acceptedBy] using h⟩
  | unregister userID =>
    simp only [step] at hs
    obtain ⟨hin, hsent⟩ := UnregisterUser_frame hs
    refine ⟨[], by simp [hsent], fun d1 tail h => ?_⟩
    rw [hin] at h
    simpa [acceptedBy] using h
  | send msg mid pick =>
    simp only [step] at hs
    injection hs with hs
    subst hs
    have hf := SendMessage_frame b msg mid pick
    refine ⟨[], by simp [hf.1], fun d1 tail h => ?_⟩
    by_cases hr : (SendMessage b msg mid pick).2 = none
    · rw [(hf.2.2.2.1 hr).1] at h
      simpa [acceptedBy, hr] using h
    · rw [hf.2.2.2.2 hr] at h
      simpa [acceptedBy, hr] using h
  | loop pick now =>
    simp only [step] at hs
    rcases RunStep_dequeued hs with ⟨hin, hheap, _⟩ | ⟨msg, rest, hin, hdq, hdis⟩
    · refine ⟨[], by simp [hheap], fun d1 tail h => ?_⟩
      rw [hin] at h
      simpa [acceptedBy] using h
    · have hin1 := (dispatch_frame hdis).1
      have hd2 : (stamp msg now).Broadcast = true →
          SinksDistinct { b with input := rest } := by
        intro hbc
        rw [stamp_Broadcast] at hbc
        exact hd msg hdq hbc
      rcases dispatch_sent_distinct hdis hd2 i with h0 | h1
      · refine ⟨[], by simpa using h0, fun d1 tail h => ?_⟩
        rw [hin1] at h
        rw [hin]
        simpa [acceptedBy] using List.SublistForall₂.cons_right h
      · refine ⟨[stamp msg now], h1, fun d1 tail h => ?_⟩
        rw [hin1] at h
        rw [hin]
        simpa [acceptedBy] using List.SublistForall₂.cons (stamped_stamp msg now) h
  | cancel e =>
    simp only [step, cancelCtx] at hs
    split at hs
    · simp at hs; subst hs
      exact ⟨[], by simp, fun d1 tail h => by simpa [acceptedBy] using h⟩
    · simp at hs; subst hs
      exact ⟨[], by simp, fun d1 tail h => by simpa [acceptedBy] using h⟩
  | consume j =>
    simp [step] at hs; subst hs
    refine ⟨[], ?_, fun d1 tail h => by simpa [acceptedBy] using h⟩
    by_cases hij : i = j
    · subst hij; simp [recv_sent]
    · simp [Function.update_noteq hij]

theorem exec_order {steps : List Step} {b b1 : Broker} (hd : DistinctAlong b steps)
    (he : exec b steps = .ok b1) (i : Nat) :
    ∃ delivered, (b1.heap i).sent = (b.heap i).sent ++ delivered ∧
      List.SublistForall₂ Stamped delivered (b.input ++ accepted b steps) := by
  induction steps generalizing b with
  | nil =>
    simp [exec] at he; subst he
    exact ⟨[], by simp, List.SublistForall₂.nil⟩
  | cons s rest ih =>
    obtain ⟨hd1, hd2⟩ := hd
    unfold exec at he
    cases hs : step b s with
    | error p => rw [hs] at he; cases he
    | ok b2 =>
      rw [hs] at he hd2
      simp only at he hd2
      obtain ⟨d1, hsent1, hsub1⟩ := ih hd2 he
      obtain ⟨d0, hsent0, hbr⟩ := step_bridge hs hd1 i
      refine ⟨d0 ++ d1, by rw [hsent1, hsent0, List.append_assoc], ?_⟩
      have := hbr d1 (accepted b2 rest) hsub1
      unfold accepted
      rw [hs]
      exact this

/-! ## Delivery order -/

/-- C6 (as worded, refuted): after one channel has been registered under "alice" and
"bob", a single accepted broadcast is placed twice in that channel, so the delivered
sequence is not a subsequence of the accepted one (a duplicate). -/
theorem order_spec_fails :
    (∃ b1, exec (NewBroker none heap2) sharedRun = .ok b1 ∧
      (b1.heap 0).sent = [hello, hello]) ∧
    accepted (NewBroker none heap2) sharedRun = [hello] ∧
    ¬ OrderSpec (NewBroker none heap2) sharedRun := by
  refine ⟨⟨_, rfl, rfl⟩, rfl, ?_⟩
  intro h
  have h2 : ∃ b1, exec (NewBroker none heap2) sharedRun = .ok b1 ∧
      (b1.heap 0).sent = [hello, hello] := ⟨_, rfl, rfl⟩
  obtain ⟨b1, hb1, hsent⟩ := h2
  obtain ⟨d, hd, hsub⟩ := h b1 hb1 0
  have ha : (NewBroker none heap2).input ++ accepted (NewBroker none heap2) sharedRun =
      [hello] := rfl
  have h0 : ((NewBroker none heap2).heap 0).sent = [] := rfl
  rw [ha] at hsub
  rw [hsent, h0, List.nil_append] at hd
  subst hd
  rw [List.sublistForall₂_iff] at hsub
  obtain ⟨l, hl1, hl2⟩ := hsub
  have e1 := hl1.length_eq
  have e2 := hl2.length_le
  simp at e1 e2
  omega

/-- C6 (amended): along every run in which no channel is registered under two identities
whenever the loop dispatches a broadcast message (private dispatches and idle wakes put
no condition on the registry), what the dispatch loop places in any channel is, up to
the timestamp rule, a subsequence (same relative order, no duplicates) of the messages
pending at the start followed by the messages `SendMessage` accepted during the run. -/
theorem delivery_order (b : Broker) (steps : List Step) (hd : DistinctAlong b steps) :
    OrderSpec b steps := by
  intro b1 he i
  exact exec_order hd he i

/-- The condition of `delivery_order` is not asked of private dispatches: with one channel
registered under "alice" and "bob", a run that queues and dispatches a private message
to "bob" meets it, and the delivered sequence is a subsequence of the accepted one. -/
theorem shared_private_order :
    DistinctAlong sharedSink [Step.send toBob none true, Step.loop true 0] ∧
    OrderSpec sharedSink [Step.send toBob none true, Step.loop true 0] := by
  have hd : DistinctAlong sharedSink [Step.send toBob none true, Step.loop true 0] := by
    simp [DistinctAlong, distinctAt, dequeued, sharedSink, step, SendMessage, toBob,
      inputCap, RunStep, dispatch, sendPrivateMessage, lookupUser, trySend, stamp, heap2,
      mkChan, Chan.full, Chan.push]
  exact ⟨hd, fun b1 he i => exec_order hd he i⟩

theorem delivery_order_witness :
    DistinctAlong (NewBroker none heap2) sampleRun ∧
    OrderSpec (NewBroker none heap2) sampleRun := by
  have hd : DistinctAlong (NewBroker none heap2) sampleRun := by
    simp [DistinctAlong, distinctAt, dequeued, SinksDistinct, sampleRun, step, RegisterUser, UnregisterUser,
      NewBroker, setUser, deleteUser, lookupUser, SendMessage, RunStep, dispatch,
      broadcastMessage, sendAll, trySend, heap2, mkChan, hello, hello0, stamp, Chan.close,
      Chan.full, Chan.push, inputCap, Function.update, cancelCtx]
  exact ⟨hd, delivery_order _ _ hd⟩

/-! ## Timestamps -/

/-- Every copy a wake of the loop adds to a send history is the dequeued message with the
timestamp rule applied at the clock reading of that wake. -/
theorem RunStep_delivered {b b1 : Broker} {pick : Bool} {now : Int} {msg : Message}
    {rest : List Message} (hin : b.input = msg :: rest)
    (h : RunStep b pick now = .ok b1) (i : Nat) (delivered : List Message)
    (hs : (b1.heap i).sent = (b.heap i).sent ++ delivered) :
    ∀ d ∈ delivered, d = stamp msg now := by
  rcases RunStep_cases h with ⟨_, hheap, _⟩ | ⟨msg2, rest2, hin2, _, hdis⟩
  · rw [hheap] at hs
    have : delivered = [] := by simpa using hs
    subst this
    intro d hd; cases hd
  · rw [hin] at hin2
    injection hin2 with hm hr
    subst hm
    obtain ⟨k, hk⟩ := dispatch_sent hdis i
    simp only at hk
    rw [hk] at hs
    have : delivered = List.replicate k (stamp msg now) :=
      (List.append_cancel_left hs).symm
    subst this
    intro d hd
    exact List.eq_of_mem_replicate hd

/-- C8 (as worded, refuted): the stamp is the clock reading taken when the loop dequeues
the message.  A reading of 0 leaves the delivered copy with a zero timestamp, and a clock
set back between submission (1700000100) and dispatch (1700000000) gives the copy a
timestamp earlier than its submission time. -/
theorem timestamp_spec_fails :
    exec (NewBroker none heap2)
      [Step.register "alice" (some 0), Step.send hello0 none true] = .ok pendingZero ∧
    (∃ b1, RunStep pendingZero true 0 = .ok b1 ∧
      (b1.heap 0).sent = [{ hello0 with Timestamp := 0 }]) ∧
    ¬ TimestampSpec pendingZero true 0 0 ∧
    ¬ TimestampSpec pendingZero true 1700000100 1700000000 := by
  refine ⟨rfl, ⟨_, rfl, rfl⟩, ?_, ?_⟩
  · intro h
    have h2 : ∃ b1, RunStep pendingZero true 0 = .ok b1 ∧
        (b1.heap 0).sent = (pendingZero.heap 0).sent ++ [{ hello0 with Timestamp := 0 }] :=
      ⟨_, rfl, rfl⟩
    obtain ⟨b1, hb1, hsent⟩ := h2
    have := (h hello0 [] b1 rfl rfl hb1 0 _ hsent _ (List.mem_singleton_self _)).1
    exact this rfl
  · intro h
    have h2 : ∃ b1, RunStep pendingZero true 1700000000 = .ok b1 ∧
        (b1.heap 0).sent =
          (pendingZero.heap 0).sent ++ [{ hello0 with Timestamp := 1700000000 }] :=
      ⟨_, rfl, rfl⟩
    obtain ⟨b1, hb1, hsent⟩ := h2
    have := (h hello0 [] b1 rfl rfl hb1 0 _ hsent _ (List.mem_singleton_self _)).2
    simp at this

/-- C8 (amended): every copy of a message submitted with a zero timestamp that a wake of
the loop places in a sink carries the clock reading `now` taken at that wake; it is
non-zero and at least the submission time whenever that reading is non-zero and the
wall clock has not been set back since the submission. -/
theorem timestamp_at_dispatch (b : Broker) (pick : Bool) (submitted now : Int)
    (hnz : now ≠ 0) (hmono : submitted ≤ now) :
    TimestampSpec b pick submitted now ∧
    ∀ msg rest b1, b.input = msg :: rest → msg.Timestamp = 0 →
      RunStep b pick now = .ok b1 →
      ∀ i delivered, (b1.heap i).sent = (b.heap i).sent ++ delivered →
        ∀ d ∈ delivered, d = { msg with Timestamp := now } := by
  have key : ∀ msg rest b1, b.input = msg :: rest → msg.Timestamp = 0 →
      RunStep b pick now = .ok b1 →
      ∀ i delivered, (b1.heap i).sent = (b.heap i).sent ++ delivered →
        ∀ d ∈ delivered, d = { msg with Timestamp := now } := by
    intro msg rest b1 hin hz hr i delivered hs d hd
    have := RunStep_delivered hin hr i delivered hs d hd
    rw [this]
    simp [stamp, hz]
  refine ⟨?_, key⟩
  intro msg rest b1 hin hz hr i delivered hs d hd
  rw [key msg rest b1 hin hz hr i delivered hs d hd]
  exact ⟨hnz, hmono⟩

theorem timestamp_at_dispatch_witness :
    (1700000000 : Int) ≠ 0 ∧ (1699999999 : Int) ≤ 1700000000 ∧
    TimestampSpec pendingZero true 1699999999 1700000000 :=
  ⟨by decide, by decide,
    (timestamp_at_dispatch pendingZero true 1699999999 1700000000 (by decide) (by decide)).1⟩

/-! ## Shutdown -/

/-- Once the loop has returned, a further wake does nothing. -/
theorem RunStep_done (b : Broker) (pick : Bool) (now : Int) (h : b.done = true) :
    RunStep b pick now = .ok b := by
  unfold RunStep
  simp [h]

/-- When the `select` takes the cancellation case (the queue is empty, or the scheduler
picks that case) the loop returns without dispatching anything. -/
theorem RunStep_exit (b : Broker) (pick : Bool) (now : Int) (e : CtxErr)
    (hd : b.done = false) (hc : b.ctx = some e) (hq : b.input = [] ∨ pick = false) :
    RunStep b pick now = .ok { b with done := true } := by
  unfold RunStep
  rcases hq with hq | hq
  · simp [hd, hc, hq]
  · cases hin : b.input with
    | nil => simp [hd, hc]
    | cons msg rest => simp [hd, hc, hq]

/-- C9 (the code at the failing input): with the context cancelled and a message still
queued, a wake of the loop whose `select` picks the receive case dequeues the message and
delivers it to "alice", and the loop keeps running. -/
theorem dispatch_after_cancel :
    exec (NewBroker none heap2)
      [Step.register "alice" (some 0), Step.send hello none true,
       Step.cancel CtxErr.Canceled] = .ok cancelledPending ∧
    ∃ b1, RunStep cancelledPending true 0 = .ok b1 ∧
      (b1.heap 0).buf = [hello] ∧ (b1.heap 0).sent = [hello] ∧
      b1.input = [] ∧ b1.done = false :=
  ⟨rfl, _, rfl, rfl, rfl, rfl, rfl⟩

/-! ## The order in which the broadcast visits the registry does not matter -/

theorem sendAll_cons (heap : Nat → Chan) (k : String) (ch : Option Nat)
    (rest : List (String × Option Nat)) (msg : Message) :
    sendAll heap ((k, ch) :: rest) msg =
      (trySend heap ch msg).bind (fun h1 => sendAll h1 rest msg) := by
  rw [sendAll]
  cases trySend heap ch msg <;> rfl

theorem except_bind_assoc {α β γ : Type} (x : Except Panic α) (f : α → Except Panic β)
    (g : β → Except Panic γ) :
    (x.bind f).bind g = x.bind (fun a => (f a).bind g) := by
  cases x <;> rfl

theorem except_bind_ok {α : Type} (x : Except Panic α) :
    x.bind (fun a => Except.ok a) = x := by
  cases x <;> rfl

theorem trySend_comm (heap : Nat → Chan) (a c : Option Nat) (msg : Message) :
    (trySend heap a msg).bind (fun h1 => trySend h1 c msg) =
    (trySend heap c msg).bind (fun h1 => trySend h1 a msg) := by
  cases a with
  | none =>
    have h0 : ∀ h1, trySend h1 none msg = Except.ok h1 := fun _ => rfl
    simp only [h0, except_bind_ok]
    rfl
  | some i =>
    cases c with
    | none =>
      have h0 : ∀ h1, trySend h1 none msg = Except.ok h1 := fun _ => rfl
      simp only [h0, except_bind_ok]
      rfl
    | some j =>
      by_cases hij : i = j
      · subst hij; rfl
      · have hji : j ≠ i := fun h => hij h.symm
        by_cases hci : (heap i).closed = true <;> by_cases hcj : (heap j).closed = true <;>
          by_cases hfi : (heap i).full = true <;> by_cases hfj : (heap j).full = true <;>
          simp [trySend, Except.bind, hci, hcj, hfi, hfj, Function.update_noteq hij,
            Function.update_noteq hji, Function.update_comm hij]

/-- Go visits a map in an unspecified order; the result of the broadcast loop is the same
for every order of the registry entries. -/
theorem sendAll_perm {users1 users2 : List (String × Option Nat)} (hp : users1.Perm users2)
    (msg : Message) : ∀ heap, sendAll heap users1 msg = sendAll heap users2 msg := by
  induction hp with
  | nil => intro heap; rfl
  | cons x _ ih =>
    intro heap
    obtain ⟨k, ch⟩ := x
    rw [sendAll_cons, sendAll_cons]
    congr 1
    funext h1
    exact ih h1
  | swap x y l =>
    intro heap
    obtain ⟨k, ch⟩ := x
    obtain ⟨k2, ch2⟩ := y
    simp only [sendAll_cons]
    rw [← except_bind_assoc, ← except_bind_assoc, trySend_comm]
  | trans _ _ ih1 ih2 =>
    intro heap
    rw [ih1, ih2]

/-! ## Private message to a registered recipient -/

/-- C11 (as worded, refuted): in `sharedClosed` (reached by registering one channel under
"alice" and "bob" and unregistering "alice") a private message to "bob" makes the
dispatch send on the closed channel and panic; in `sharedSink` a private message to "bob"
lands in the channel that is also the sink of "alice", so the sink of another registered
user changes. -/
theorem private_spec_fails :
    toBob.Broadcast = false ∧
    exec (NewBroker none heap2)
      [Step.register "alice" (some 0), Step.register "bob" (some 0)] = .ok sharedSink ∧
    exec sharedSink [Step.unregister "alice"] = .ok sharedClosed ∧
    dispatch sharedClosed toBob = .error Panic.sendOnClosed ∧
    ¬ PrivateSpec sharedClosed toBob ∧ ¬ PrivateSpec sharedSink toBob := by
  refine ⟨rfl, rfl, rfl, rfl, ?_, ?_⟩
  · intro h
    obtain ⟨b1, hd, _⟩ := h (some 0) rfl
    have h2 : dispatch sharedClosed toBob = .error Panic.sendOnClosed := rfl
    rw [h2] at hd
    cases hd
  · intro h
    obtain ⟨b1, hd, _, _, hothers⟩ := h (some 0) rfl
    have h2 : ∃ b2, dispatch sharedSink toBob = .ok b2 ∧ (b2.heap 0).sent = [toBob] :=
      ⟨_, rfl, rfl⟩
    obtain ⟨b2, hb2, hsent⟩ := h2
    rw [hb2] at hd
    injection hd with hd
    subst hd
    have hal := hothers "alice" 0 (by decide) rfl
    rw [hal] at hsent
    simp [sharedSink, heap2, mkChan] at hsent

/-- C11 (amended): for a private message whose Recipient is registered with a sink that is
not closed, the dispatch completes; a recipient sink that is not full has the message
appended, a full one leaves the message dropped; in both cases every other channel is
unchanged, so the sink of every other registered user that is not the recipient's own
channel is unchanged (the claim as worded holds when no other identity shares the
recipient's channel). -/
theorem private_delivers (b : Broker) (msg : Message) (hpriv : msg.Broadcast = false)
    (hopen : ∀ i, lookupUser b.users msg.Recipient = some (some i) →
      (b.heap i).closed = false) :
    ((∀ other i, other ≠ msg.Recipient →
        lookupUser b.users msg.Recipient = some (some i) →
        lookupUser b.users other ≠ some (some i)) → PrivateSpec b msg) ∧
    (∀ ch, lookupUser b.users msg.Recipient = some ch →
      ∃ b1, dispatch b msg = .ok b1 ∧ b1.users = b.users ∧ b1.input = b.input ∧
        (ch = none → b1.heap = b.heap) ∧
        (∀ i, ch = some i →
          ((b.heap i).full = false →
            b1.heap i = (b.heap i).push msg ∧
            (b1.heap i).sent = (b.heap i).sent ++ [msg]) ∧
          ((b.heap i).full = true → b1.heap i = b.heap i) ∧
          (∀ j, j ≠ i → b1.heap j = b.heap j))) := by
  have hdisp : dispatch b msg = sendPrivateMessage b msg := by
    unfold dispatch
    simp [hpriv]
  have gen : ∀ ch, lookupUser b.users msg.Recipient = some ch →
      ∃ b1, dispatch b msg = .ok b1 ∧ b1.users = b.users ∧ b1.input = b.input ∧
        (ch = none → b1.heap = b.heap) ∧
        (∀ i, ch = some i →
          ((b.heap i).full = false →
            b1.heap i = (b.heap i).push msg ∧
            (b1.heap i).sent = (b.heap i).sent ++ [msg]) ∧
          ((b.heap i).full = true → b1.heap i = b.heap i) ∧
          (∀ j, j ≠ i → b1.heap j = b.heap j)) := by
    intro ch hl
    cases ch with
    | none =>
      refine ⟨b, ?_, rfl, rfl, fun _ => rfl, ?_⟩
      · rw [hdisp]
        unfold sendPrivateMessage
        rw [hl]
        rfl
      · intro i hi
        cases hi
    | some i =>
      have ho := hopen i hl
      have ht : trySend b.heap (some i) msg = _ := trySend_open msg ho
      refine ⟨{ b with heap := if (b.heap i).full then b.heap
          else Function.update b.heap i ((b.heap i).push msg) }, ?_, rfl, rfl, ?_, ?_⟩
      · rw [hdisp]
        unfold sendPrivateMessage
        rw [hl]
        simp only [ht]
      · intro hn
        cases hn
      · intro i2 hi2
        injection hi2 with hi2
        subst hi2
        refine ⟨?_, ?_, ?_⟩
        · intro hf
          have : (if (b.heap i).full = true then b.heap
              else Function.update b.heap i ((b.heap i).push msg)) i =
              (b.heap i).push msg := by
            simp [hf]
          exact ⟨this, by simp only; rw [this, push_sent]⟩
        · intro hf
          simp [hf]
        · intro j hj
          by_cases hf : (b.heap i).full = true
          · simp [hf]
          · simp [hf, Function.update_noteq hj]
  refine ⟨?_, gen⟩
  intro hunshared ch hl
  obtain ⟨b1, hd, hu, _, hnil, hsome⟩ := gen ch hl
  refine ⟨b1, hd, hu, ?_, ?_⟩
  · intro i hi
    exact ⟨(hsome i hi).1, (hsome i hi).2.1⟩
  · intro other j hne hlo
    cases ch with
    | none => rw [hnil rfl]
    | some i =>
      have hji : j ≠ i := by
        intro hji
        subst hji
        exact hunshared other j hne hl hlo
      exact (hsome i rfl).2.2 j hji

theorem private_delivers_witness :
    toBob.Broadcast = false ∧
    lookupUser (RegisterUser (RegisterUser (NewBroker none heap2) "alice" (some 0)) "bob"
      (some 1)).users toBob.Recipient = some (some 1) ∧
    PrivateSpec (RegisterUser (RegisterUser (NewBroker none heap2) "alice" (some 0)) "bob"
      (some 1)) toBob := by
  refine ⟨rfl, rfl, (private_delivers _ toBob rfl ?_).1 ?_⟩
  · intro i _
    rfl
  · intro other i hne hl
    have h1 : lookupUser (RegisterUser (RegisterUser (NewBroker none heap2) "alice"
        (some 0)) "bob" (some 1)).users toBob.Recipient = some (some 1) := rfl
    rw [h1] at hl
    injection hl with hl
    injection hl with hl
    subst hl
    have hne2 : ¬ "bob" = other := fun h => hne h.symm
    simp only [RegisterUser, setUser, NewBroker, deleteUser, List.filter_nil, lookupUser]
    simp only [hne2, if_false]
    by_cases ha : "alice" = other
    · simp [ha.symm, lookupUser]
    · simp [ha, lookupUser]

/-! ## What the broker changes in a message -/

/-- C12: for the message the loop dequeues, every copy the wake places in a sink has the
same Sender, Recipient, Content and Broadcast; it is the message itself when its Timestamp
is non-zero, and the message with only its Timestamp replaced by the clock reading when
its Timestamp is zero. -/
theorem delivered_fields (b b1 : Broker) (pick : Bool) (now : Int) (msg : Message)
    (rest : List Message) (hin : b.input = msg :: rest)
    (h : RunStep b pick now = .ok b1) (i : Nat) (delivered : List Message)
    (hs : (b1.heap i).sent = (b.heap i).sent ++ delivered) :
    ∀ d ∈ delivered,
      d.Sender = msg.Sender ∧ d.Recipient = msg.Recipient ∧ d.Content = msg.Content ∧
      d.Broadcast = msg.Broadcast ∧
      (msg.Timestamp ≠ 0 → d.Timestamp = msg.Timestamp ∧ d = msg) ∧
      (msg.Timestamp = 0 → d = { msg with Timestamp := now }) := by
  intro d hd
  have hdm := RunStep_delivered hin h i delivered hs d hd
  subst hdm
  unfold stamp
  by_cases hz : msg.Timestamp = 0
  · simp [hz]
  · simp [hz]

theorem delivered_fields_witness :
    pendingZero.input = [hello0] ∧
    ({ hello0 with Timestamp := 1700000000 } : Message).Sender = hello0.Sender ∧
    ({ hello0 with Timestamp := 1700000000 } : Message).Content = hello0.Content := by
  have h2 : ∃ b1, RunStep pendingZero true 1700000000 = .ok b1 ∧
      (b1.heap 0).sent =
        (pendingZero.heap 0).sent ++ [{ hello0 with Timestamp := 1700000000 }] :=
    ⟨_, rfl, rfl⟩
  obtain ⟨b1, hb1, hsent⟩ := h2
  have h := delivered_fields pendingZero b1 true 1700000000 hello0 [] rfl hb1 0 _ hsent
    _ (List.mem_singleton_self _)
  exact ⟨rfl, h.1, h.2.2.1⟩

end Chatcore
